import Mathlib

/-!
Shallow embedding of `src/main.rs` of texel-sensei/duplicate-image-finder.

File contents are lists of byte values (`List Nat`, each entry a `u8` value).
The filesystem, the image decoder and the PDQ descriptor computation are the
program's external collaborators; they are passed in as function parameters
(`fs`, `decode`).  Machine integers (`u64`, `usize`) are modelled as `Nat`
with explicit `% 2 ^ 64` where Rust wrapping arithmetic occurs.
-/

namespace DupFinder

/-! ### Model of the external `seahash` crate

`FileData::hash` calls `seahash::hash(&mmap[0..prefix])` (main.rs:54).  The
crate is external to the repository; it is modelled here by its reference
algorithm: four 64-bit lanes seeded with fixed constants, 32-byte rounds of
xor-and-diffuse, a tail step for the remaining bytes, and a final diffusion
of the xor of the lanes with the written length.  All `u64` arithmetic is
`Nat` arithmetic reduced `% 2 ^ 64`. -/

/-- One diffusion step of seahash: multiply by the prime, xor-shift, multiply
again, wrapping at 64 bits. -/
def diffuse (x : Nat) : Nat :=
  let y := x * 0x6eed0e9da4d94a4f % 2 ^ 64
  let z := y ^^^ ((y >>> 32) >>> (y >>> 60))
  z * 0x6eed0e9da4d94a4f % 2 ^ 64

/-- Little-endian integer read of up to eight bytes (`read_int` / `read_u64`).
Each entry is reduced `% 256` because the source reads `u8` values. -/
def readLE (bytes : List Nat) : Nat :=
  bytes.foldr (fun b acc => b % 256 + 256 * acc) 0

/-- One 32-byte round: xor one little-endian word into each lane and diffuse. -/
def seahashRound (chunk : List Nat) (s : Nat × Nat × Nat × Nat) : Nat × Nat × Nat × Nat :=
  (diffuse (s.1 ^^^ readLE (chunk.take 8)),
   diffuse (s.2.1 ^^^ readLE ((chunk.drop 8).take 8)),
   diffuse (s.2.2.1 ^^^ readLE ((chunk.drop 16).take 8)),
   diffuse (s.2.2.2 ^^^ readLE ((chunk.drop 24).take 8)))

/-- Tail step on the fewer than 32 remaining bytes: fill the lanes in order
with the remaining little-endian words. -/
def seahashTail (buf : List Nat) (s : Nat × Nat × Nat × Nat) : Nat × Nat × Nat × Nat :=
  if buf.length = 0 then s
  else if buf.length ≤ 8 then
    (diffuse (s.1 ^^^ readLE buf), s.2.1, s.2.2.1, s.2.2.2)
  else if buf.length ≤ 16 then
    (diffuse (s.1 ^^^ readLE (buf.take 8)),
     diffuse (s.2.1 ^^^ readLE (buf.drop 8)), s.2.2.1, s.2.2.2)
  else if buf.length ≤ 24 then
    (diffuse (s.1 ^^^ readLE (buf.take 8)),
     diffuse (s.2.1 ^^^ readLE ((buf.drop 8).take 8)),
     diffuse (s.2.2.1 ^^^ readLE (buf.drop 16)), s.2.2.2)
  else
    (diffuse (s.1 ^^^ readLE (buf.take 8)),
     diffuse (s.2.1 ^^^ readLE ((buf.drop 8).take 8)),
     diffuse (s.2.2.1 ^^^ readLE ((buf.drop 16).take 8)),
     diffuse (s.2.2.2 ^^^ readLE (buf.drop 24)))

/-- The main loop, by the number of full 32-byte rounds remaining. -/
def seahashRounds : Nat → List Nat → Nat × Nat × Nat × Nat → Nat × Nat × Nat × Nat
  | 0, buf, s => seahashTail buf s
  | n + 1, buf, s => seahashRounds n (buf.drop 32) (seahashRound (buf.take 32) s)

/-- `seahash::hash`: the seeded buffer hash with the crate's default keys. -/
def seahash (buf : List Nat) : Nat :=
  let s := seahashRounds (buf.length / 32) buf
    (0x16f11fe89b0d677c, 0xb480a793d8e6c86c, 0x6fe2e5aaf078ebc9, 0x14f994a4c5259381)
  diffuse (s.1 ^^^ s.2.1 ^^^ s.2.2.1 ^^^ s.2.2.2 ^^^ (buf.length % 2 ^ 64))

/-! ### Data model (main.rs:23-42) -/

/-- The `[u8; 32]` PDQ descriptor: 32 byte values. -/
abbrev Descriptor := { l : List Nat // l.length = 32 ∧ ∀ b ∈ l, b < 256 }

/-- `type PdqHash = ([u8; 32], f32)` (main.rs:23).  The `f32` quality score is
never read anywhere in the program after creation; it is carried as its raw
32-bit pattern (a `Nat`) so that records stay decidable. -/
abbrev PdqHash := Descriptor × Nat

/-- `struct FileData` (main.rs:26-32). -/
structure FileData where
  path : String
  file_hash : Option Nat
  size : Option Nat
  perception_hash : Option PdqHash
deriving DecidableEq

/-- `FileData::from_file` (main.rs:35-42). -/
def FileData.from_file (path : String) : FileData :=
  { path := path, file_hash := none, size := none, perception_hash := none }

/-- `FileData::hash` (main.rs:44-65).  `fs` models opening plus memory-mapping
the file (`None` = the open or the map failed, the two per-file error paths);
`decode` models `pdqhash::image::load_from_memory` composed with
`pdqhash::generate_pdq`, already an `Option` in the source. -/
def FileData.hash (fs : String → Option (List Nat)) (decode : List Nat → Option PdqHash)
    (try_perception_hash : Bool) (self : FileData) : Except String FileData :=
  match fs self.path with
  | none => Except.error ("Trying to open " ++ self.path)
  | some mmap =>
    let plen := min mmap.length 4096
    let hashed := { self with
      file_hash := some (seahash (mmap.take plen)),
      size := some mmap.length }
    let hashed :=
      if try_perception_hash then { hashed with perception_hash := decode mmap } else hashed
    Except.ok hashed

/-! ### File discovery (main.rs:185-209)

`collect` consumes the stream of `walkdir` results; that stream is the
external traversal collaborator and is modelled as a list of entries, each
either a successful directory entry (a path together with the outcome of the
`path().is_file()` check) or a traversal error. -/

/-- One item produced by the `WalkDir` iterator. -/
inductive DirEntry where
  | ok (path : String) (is_file : Bool)
  | err (msg : String)
deriving DecidableEq

/-- The `filter_map` closure of `collect` (main.rs:189-207): errors are
forwarded (wrapped) as individual `Err` results, non-files are dropped, files
become fingerprinting tasks. -/
def collectStep : DirEntry → Option (Except String FileData)
  | .err msg => some (Except.error ("Invalid directory entry while iterating!: " ++ msg))
  | .ok p isf => if isf then some (Except.ok (FileData.from_file p)) else none

/-- `collect` (main.rs:185-209). -/
def collect (entries : List DirEntry) : List (Except String FileData) :=
  entries.filterMap collectStep

/-! ### The hashing phase of `main` (main.rs:79-100) -/

/-- The `filter_map` closure over one discovery result in `main`
(main.rs:82-95): a discovery error or a per-file hashing error drops the file
(after logging); a success keeps the fully hashed record. -/
def hashStep (fs : String → Option (List Nat)) (decode : List Nat → Option PdqHash)
    (detect : Bool) : Except String FileData → Option FileData
  | .error _ => none
  | .ok fd =>
    match FileData.hash fs decode detect fd with
    | .ok hashed => some hashed
    | .error _ => none

/-- The hashing phase of `main` (main.rs:79-97). -/
def hashPhase (fs : String → Option (List Nat)) (decode : List Nat → Option PdqHash)
    (detect : Bool) (data : List (Except String FileData)) : List FileData :=
  data.filterMap (hashStep fs decode detect)

/-- `total_size` (main.rs:100): `data.iter().map(|file| file.size.unwrap()).sum()`.
The `unwrap` is modelled by `Option.getD 0`; `hashPhase_mem` shows the
field is always present on records reaching this point. -/
def totalSize (data : List FileData) : Nat :=
  (data.map (fun f => f.size.getD 0)).sum

/-! ### Exact grouping (main.rs:115-134, 175-183) -/

/-- The key under which `group_candates` files an item:
`item.file_hash.unwrap()` (main.rs:179).  The `unwrap` is modelled by
`Option.getD 0`; `hashPhase_mem` shows the field is always present on
the records the program passes in. -/
def hashKey (fd : FileData) : Nat := fd.file_hash.getD 0

/-- A `BTreeMap<u64, Vec<&FileData>>`: an association list sorted strictly by
key. -/
abbrev HashMapL := List (Nat × List FileData)

/-- `BTreeMap::entry(k).or_default().push(v)`: ordered insertion, appending
to the existing entry when the key is present. -/
def insertEntry (k : Nat) (v : FileData) : HashMapL → HashMapL
  | [] => [(k, [v])]
  | (k₀, vs) :: rest =>
    if k < k₀ then (k, [v]) :: (k₀, vs) :: rest
    else if k = k₀ then (k₀, vs ++ [v]) :: rest
    else (k₀, vs) :: insertEntry k v rest

/-- `group_candates` (main.rs:175-183). -/
def group_candates (items : List FileData) : HashMapL :=
  items.foldl (fun m it => insertEntry (hashKey it) it m) []

/-- The retained groups of `build_exact_groups` (main.rs:116-118):
`groups.retain(|_, v| v.len() > 1)`. -/
def exact_groups (items : List FileData) : HashMapL :=
  (group_candates items).filter (fun g => 1 < g.2.length)

/-- `build_exact_groups` (main.rs:115-134), up to printing: it computes the
retained groups and the average group size
`groups.iter().map(|(_, v)| v.len()).sum::<usize>() / groups.len()`
(main.rs:122).  Rust `usize` division panics when the divisor is zero, which
the embedding records as an `Except.error`. -/
def build_exact_groups (items : List FileData) : Except String (HashMapL × Nat) :=
  let groups := exact_groups items
  if groups.length = 0 then Except.error ("attempt to divide by zero")
  else Except.ok (groups, ((groups.map (fun g => g.2.length)).foldl (· + ·) 0) / groups.length)

/-! ### Perceptual grouping (main.rs:136-173) -/

/-- `const ALLOWED_DISTANCE: u64 = 3` (main.rs:137). -/
def ALLOWED_DISTANCE : Nat := 3

/-- Fuelled binary population count; exact for arguments below `2 ^ fuel`. -/
def popcountAux : Nat → Nat → Nat
  | 0, _ => 0
  | fuel + 1, n => n % 2 + popcountAux fuel (n / 2)

/-- Population count of a machine word (exact below `2 ^ 64`). -/
def popcount (n : Nat) : Nat := popcountAux 64 n

/-- Model of `hamming::distance` on equal-length byte slices: the number of
differing bits, summed bytewise as popcounts of xors. -/
def hammingList : List Nat → List Nat → Nat
  | x :: xs, y :: ys => popcount (x ^^^ y) + hammingList xs ys
  | _, _ => 0

/-- `hamming::distance(&a, &b)` on two 32-byte descriptors. -/
def hammingDistance (x y : Descriptor) : Nat := hammingList x.val y.val

/-- Fallback `PdqHash` backing the `Option.getD` model of `unwrap`. -/
def pdqDefault : PdqHash := (⟨List.replicate 32 0, by decide⟩, 0)

/-- The descriptor half of `fd.perception_hash.unwrap()` (main.rs:146,153).
The `unwrap` is modelled by `Option.getD`; the record lists the program
reads it on are pre-filtered to records carrying the fingerprint. -/
def descrOf (fd : FileData) : Descriptor := (fd.perception_hash.getD pdqDefault).1

/-- `images` (main.rs:139): the records carrying a perceptual fingerprint.
A Rust `&FileData` borrowed from the `data` slice is identified by the index
of the element it points at, so `addr_eq` becomes equality of indices. -/
def perceptionImages (data : List FileData) : List (Nat × FileData) :=
  data.enum.filter (fun p => p.2.perception_hash.isSome)

/-- The filter predicate of the `similars` computation (main.rs:148-156):
reject the record itself (by address, i.e. by index), otherwise compare the
Hamming distance of the descriptors against the threshold. -/
def similarPred (t : Nat) (image other : Nat × FileData) : Bool :=
  if other.1 = image.1 then false
  else decide (hammingDistance (descrOf image.2) (descrOf other.2) ≤ t)

/-- `similars` (main.rs:148-156) for one record. -/
def similarsOf (t : Nat) (images : List (Nat × FileData)) (image : Nat × FileData) :
    List (Nat × FileData) :=
  images.filter (similarPred t image)

/-- `build_perception_groups` (main.rs:136-161) at an explicit threshold `t`
(the source fixes `t = ALLOWED_DISTANCE`; the spec calls `t` the clustering
threshold): one cluster per record whose similar-set is non-empty. -/
def build_perception_groups_at (t : Nat) (data : List FileData) :
    List ((Nat × FileData) × List (Nat × FileData)) :=
  (perceptionImages data).filterMap (fun image =>
    let s := similarsOf t (perceptionImages data) image
    if s.isEmpty then none else some (image, s))

/-- `build_perception_groups` (main.rs:136-161) as compiled, at the constant
threshold. -/
def build_perception_groups (data : List FileData) :
    List ((Nat × FileData) × List (Nat × FileData)) :=
  build_perception_groups_at ALLOWED_DISTANCE data

/-! ### Sample inputs used by witnesses -/

/-- A record as it looks after a successful fingerprinting pass with a
decodable image. -/
def sampleImgRec : FileData :=
  { path := "imgA", file_hash := some 10, size := some 4, perception_hash := some pdqDefault }

/-- A second such record, structurally different but with the same
descriptor. -/
def sampleImgRec2 : FileData :=
  { path := "imgB", file_hash := some 11, size := some 4, perception_hash := some pdqDefault }

/-! ### Helper lemmas about the hashing phase -/

/-- Anatomy of a record surviving the hashing phase: it came from a
successfully discovered and successfully opened file, its path is unchanged
and its `size` and `file_hash` fields were filled from the mapped bytes. -/
theorem hashPhase_mem {fs : String → Option (List Nat)} {decode : List Nat → Option PdqHash}
    {detect : Bool} {L : List (Except String FileData)} {r : FileData}
    (hr : r ∈ hashPhase fs decode detect L) :
    ∃ fd c, Except.ok fd ∈ L ∧ fs fd.path = some c ∧ r.path = fd.path ∧
      r.file_hash = some (seahash (c.take (min c.length 4096))) ∧ r.size = some c.length := by
  simp only [hashPhase, List.mem_filterMap] at hr
  obtain ⟨x, hx, hfx⟩ := hr
  match x with
  | .error m => simp [hashStep] at hfx
  | .ok fd =>
    refine ⟨fd, ?_⟩
    simp only [hashStep] at hfx
    rcases hh : FileData.hash fs decode detect fd with e | hashed <;> rw [hh] at hfx
    · simp at hfx
    · simp only [Option.some.injEq] at hfx
      subst hfx
      unfold FileData.hash at hh
      rcases hfs : fs fd.path with _ | c <;> rw [hfs] at hh
      · simp at hh
      · refine ⟨c, hx, ?_⟩
        simp only [Except.ok.injEq] at hh
        subst hh
        cases detect <;> simp

/-- C1: the content fingerprint computed by `FileData::hash` is exactly the
deterministic 64-bit seahash of the bytes `[0, min(size, 4096))` of the file,
so any two files whose first `min(size, 4096)` bytes agree receive equal
fingerprints (files under 4096 bytes hashed in full, larger files on their
4096-byte prefix only). -/
theorem c1_fingerprint_determined_by_bounded_prefix
    (fs fs' : String → Option (List Nat)) (decode decode' : List Nat → Option PdqHash)
    (t t' : Bool) (fd fd' : FileData) (c c' : List Nat)
    (h : fs fd.path = some c) (h' : fs' fd'.path = some c')
    (hpre : c.take (min c.length 4096) = c'.take (min c'.length 4096)) :
    Except.map (fun r => r.file_hash) (FileData.hash fs decode t fd)
      = Except.ok (some (seahash (c.take (min c.length 4096)))) ∧
    Except.map (fun r => r.file_hash) (FileData.hash fs' decode' t' fd')
      = Except.ok (some (seahash (c.take (min c.length 4096)))) := by
  constructor
  · unfold FileData.hash
    rw [h]
    cases t <;> simp [Except.map]
  · unfold FileData.hash
    rw [h', hpre]
    cases t' <;> simp [Except.map]

/-- Witness for C1 at two concrete files with identical contents. -/
theorem c1_fingerprint_determined_by_bounded_prefix_witness :
    Except.map (fun r => r.file_hash)
        (FileData.hash (fun _ => some [1, 2, 3]) (fun _ => none) false (FileData.from_file ("a")))
      = Except.ok (some (seahash ([1, 2, 3].take (min 3 4096)))) ∧
    Except.map (fun r => r.file_hash)
        (FileData.hash (fun _ => some [1, 2, 3]) (fun _ => none) true (FileData.from_file ("b")))
      = Except.ok (some (seahash ([1, 2, 3].take (min 3 4096)))) :=
  c1_fingerprint_determined_by_bounded_prefix
    (fun _ => some [1, 2, 3]) (fun _ => some [1, 2, 3]) (fun _ => none) (fun _ => none)
    false true (FileData.from_file ("a")) (FileData.from_file ("b")) [1, 2, 3] [1, 2, 3]
    rfl rfl rfl

/-- C7: a per-file fingerprinting failure (the open or the memory map fails)
removes exactly that file from the hashing phase's output — the remaining
files are processed as if it were never discovered — and every record that
does reach downstream consumers comes from a file that opened successfully,
so the failed file appears in no downstream result. -/
theorem c7_fingerprint_error_fully_excluded
    (fs : String → Option (List Nat)) (decode : List Nat → Option PdqHash) (detect : Bool)
    (fd : FileData) (hopen : fs fd.path = none)
    (l1 l2 : List (Except String FileData)) :
    hashPhase fs decode detect (l1 ++ Except.ok fd :: l2)
      = hashPhase fs decode detect (l1 ++ l2) ∧
    ∀ r ∈ hashPhase fs decode detect (l1 ++ Except.ok fd :: l2), (fs r.path).isSome := by
  have hstep : hashStep fs decode detect (Except.ok fd) = none := by
    simp only [hashStep]
    unfold FileData.hash
    rw [hopen]
  constructor
  · simp [hashPhase, List.filterMap_append, List.filterMap_cons, hstep]
  · intro r hr
    obtain ⟨fd', c, _, hfs, hpath, _, _⟩ := hashPhase_mem hr
    rw [hpath, hfs]
    rfl

/-- Witness for C7: a lone unopenable file yields an empty hashing phase. -/
theorem c7_fingerprint_error_fully_excluded_witness :
    hashPhase (fun _ => none) (fun _ => none) false ([] ++ Except.ok (FileData.from_file ("gone")) :: [])
      = hashPhase (fun _ => none) (fun _ => none) false ([] ++ []) ∧
    ∀ r ∈ hashPhase (fun _ => none) (fun _ => none) false
        ([] ++ Except.ok (FileData.from_file ("gone")) :: []),
      ((fun (_ : String) => (none : Option (List Nat))) r.path).isSome :=
  c7_fingerprint_error_fully_excluded (fun _ => none) (fun _ => none) false
    (FileData.from_file ("gone")) rfl [] []

/-- C8: when perceptual fingerprinting is requested and the decode or
descriptor computation fails, the failure is absorbed: `FileData::hash` still
returns success, the record keeps its content fingerprint and size, the
perceptual fingerprint is simply absent, and the record is retained by the
hashing phase. -/
theorem c8_perceptual_failure_absorbed
    (fs : String → Option (List Nat)) (decode : List Nat → Option PdqHash)
    (fd : FileData) (c : List Nat)
    (hread : fs fd.path = some c) (hdec : decode c = none) :
    FileData.hash fs decode true fd =
      Except.ok { path := fd.path,
                  file_hash := some (seahash (c.take (min c.length 4096))),
                  size := some c.length,
                  perception_hash := none } ∧
    ∀ l1 l2, hashPhase fs decode true (l1 ++ Except.ok fd :: l2) =
      hashPhase fs decode true l1 ++
        { path := fd.path,
          file_hash := some (seahash (c.take (min c.length 4096))),
          size := some c.length,
          perception_hash := none } :: hashPhase fs decode true l2 := by
  have hmain : FileData.hash fs decode true fd =
      Except.ok { path := fd.path,
                  file_hash := some (seahash (c.take (min c.length 4096))),
                  size := some c.length,
                  perception_hash := none } := by
    unfold FileData.hash
    rw [hread]
    simp [hdec]
  refine ⟨hmain, fun l1 l2 => ?_⟩
  simp [hashPhase, List.filterMap_append, List.filterMap_cons, hashStep, hmain]

/-- Witness for C8 at a concrete undecodable file. -/
theorem c8_perceptual_failure_absorbed_witness :
    FileData.hash (fun _ => some [7]) (fun _ => none) true (FileData.from_file ("x")) =
      Except.ok { path := (FileData.from_file ("x")).path,
                  file_hash := some (seahash ([7].take (min 1 4096))),
                  size := some 1,
                  perception_hash := none } ∧
    ∀ l1 l2, hashPhase (fun _ => some [7]) (fun _ => none) true
        (l1 ++ Except.ok (FileData.from_file ("x")) :: l2) =
      hashPhase (fun _ => some [7]) (fun _ => none) true l1 ++
        { path := (FileData.from_file ("x")).path,
          file_hash := some (seahash ([7].take (min 1 4096))),
          size := some 1,
          perception_hash := none } :: hashPhase (fun _ => some [7]) (fun _ => none) true l2 :=
  c8_perceptual_failure_absorbed (fun _ => some [7]) (fun _ => none)
    (FileData.from_file ("x")) [7] rfl rfl

/-- C10: every record surviving the hashing phase carries both its size and
its content fingerprint, and the perceptual clusterer's candidate list is
pre-filtered to records carrying a perceptual fingerprint — so the
program's unconditional `unwrap`s of `size` (main.rs:100), `file_hash`
(main.rs:179) and `perception_hash` (main.rs:146, 153) never see an absent
value. -/
theorem c10_unconditional_reads_never_absent :
    (∀ (fs : String → Option (List Nat)) (decode : List Nat → Option PdqHash)
       (detect : Bool) (L : List (Except String FileData)) r,
       r ∈ hashPhase fs decode detect L → r.file_hash.isSome ∧ r.size.isSome) ∧
    (∀ (data : List FileData) p, p ∈ perceptionImages data → p.2.perception_hash.isSome) := by
  constructor
  · intro fs decode detect L r hr
    obtain ⟨fd, c, _, _, _, hhash, hsize⟩ := hashPhase_mem hr
    rw [hhash, hsize]
    exact ⟨rfl, rfl⟩
  · intro data p hp
    exact (List.mem_filter.mp hp).2

/-- Witness for C10: a concretely hashed record has both fields, and a
concrete image record surfaced by the filter carries its fingerprint. -/
theorem c10_unconditional_reads_never_absent_witness :
    (∀ r ∈ hashPhase (fun _ => some [7]) (fun _ => none) false [Except.ok (FileData.from_file ("x"))],
       r.file_hash.isSome ∧ r.size.isSome) ∧
    ((0 : Nat), sampleImgRec).2.perception_hash.isSome :=
  ⟨fun r hr => c10_unconditional_reads_never_absent.1 (fun _ => some [7]) (fun _ => none)
      false [Except.ok (FileData.from_file ("x"))] r hr,
   c10_unconditional_reads_never_absent.2 [sampleImgRec] (0, sampleImgRec) (by decide)⟩

/-! ### Observations of the discovery output, for C9 -/

/-- The successful fingerprinting tasks among discovery results. -/
def okTasks (rs : List (Except String FileData)) : List FileData :=
  rs.filterMap (fun r => match r with | .ok fd => some fd | .error _ => none)

/-- The paths of the traversal entries that passed the `is_file` check. -/
def regularFiles (entries : List DirEntry) : List String :=
  entries.filterMap (fun e => match e with | .ok p true => some p | _ => none)

/-- Whether a discovery result is an error report. -/
def isErrResult : Except String FileData → Bool
  | .error _ => true
  | .ok _ => false

/-- Whether a traversal entry is a traversal error. -/
def isErrEntry : DirEntry → Bool
  | .err _ => true
  | .ok _ _ => false

/-- C9: `collect` produces exactly one fingerprinting task per entry passing
the regular-file check and nothing else; each traversal error becomes one
individual error report; a non-regular entry is dropped silently, leaving the
output unchanged; and an error entry never stops the traversal — the entries
after it are processed exactly as without it. -/
theorem c9_collect_one_task_per_regular_file (entries l1 l2 : List DirEntry)
    (p m : String) :
    okTasks (collect entries) = (regularFiles entries).map FileData.from_file ∧
    (collect entries).countP isErrResult = entries.countP isErrEntry ∧
    collect (l1 ++ DirEntry.ok p false :: l2) = collect (l1 ++ l2) ∧
    collect (l1 ++ DirEntry.err m :: l2) =
      collect l1 ++
        Except.error ("Invalid directory entry while iterating!: " ++ m) :: collect l2 := by
  refine ⟨?_, ?_, ?_, ?_⟩
  · induction entries with
    | nil => rfl
    | cons e rest ih =>
      match e with
      | .err msg => simpa [collect, collectStep, okTasks, regularFiles] using ih
      | .ok q isf =>
        cases isf <;> simpa [collect, collectStep, okTasks, regularFiles] using ih
  · induction entries with
    | nil => rfl
    | cons e rest ih =>
      match e with
      | .err msg => simpa [collect, collectStep, isErrResult, isErrEntry, List.countP_cons] using ih
      | .ok q isf =>
        cases isf <;>
          simpa [collect, collectStep, isErrResult, isErrEntry, List.countP_cons] using ih
  · simp [collect, List.filterMap_append, List.filterMap_cons, collectStep]
  · simp [collect, List.filterMap_append, List.filterMap_cons, collectStep]

/-! ### Lemmas about popcount and Hamming distance -/

theorem popcountAux_zero (f : Nat) : popcountAux f 0 = 0 := by
  induction f with
  | zero => rfl
  | succ f ih => simp [popcountAux, ih]

theorem popcountAux_eq_zero {f n : Nat} (h : n < 2 ^ f) : popcountAux f n = 0 ↔ n = 0 := by
  induction f generalizing n with
  | zero =>
    have : n = 0 := by simpa using h
    simp [this, popcountAux]
  | succ f ih =>
    have h2 : 2 ^ (f + 1) = 2 * 2 ^ f := by ring
    have hdiv : n / 2 < 2 ^ f := by omega
    constructor
    · intro hz
      simp only [popcountAux, Nat.add_eq_zero] at hz
      have := (ih hdiv).mp hz.2
      omega
    · intro hz
      subst hz
      exact popcountAux_zero _

theorem popcount_eq_zero {n : Nat} (h : n < 2 ^ 64) : popcount n = 0 ↔ n = 0 :=
  popcountAux_eq_zero h

theorem hammingList_self (xs : List Nat) : hammingList xs xs = 0 := by
  induction xs with
  | nil => rfl
  | cons x xs ih => simp [hammingList, Nat.xor_self, ih, popcount, popcountAux_zero]

theorem hammingList_comm (xs ys : List Nat) : hammingList xs ys = hammingList ys xs := by
  induction xs generalizing ys with
  | nil => cases ys <;> rfl
  | cons x xs ih =>
    cases ys with
    | nil => rfl
    | cons y ys => simp [hammingList, Nat.xor_comm, ih]

theorem hammingList_eq_zero {xs ys : List Nat} (hlen : xs.length = ys.length)
    (hx : ∀ b ∈ xs, b < 256) (hy : ∀ b ∈ ys, b < 256) :
    hammingList xs ys = 0 ↔ xs = ys := by
  induction xs generalizing ys with
  | nil =>
    cases ys with
    | nil => simp [hammingList]
    | cons y ys => simp at hlen
  | cons x xs ih =>
    cases ys with
    | nil => simp at hlen
    | cons y ys =>
      have hxb : x < 2 ^ 8 := hx x (by simp)
      have hyb : y < 2 ^ 8 := hy y (by simp)
      have hxor : x ^^^ y < 2 ^ 64 :=
        lt_of_lt_of_le (Nat.xor_lt_two_pow hxb hyb) (by norm_num)
      simp only [hammingList, Nat.add_eq_zero, List.cons.injEq]
      rw [popcount_eq_zero hxor, Nat.xor_eq_zero,
        ih (by simpa using hlen) (fun b hb => hx b (by simp [hb])) (fun b hb => hy b (by simp [hb]))]

theorem hammingDistance_self (x : Descriptor) : hammingDistance x x = 0 :=
  hammingList_self x.val

theorem hammingDistance_comm (x y : Descriptor) : hammingDistance x y = hammingDistance y x :=
  hammingList_comm x.val y.val

theorem hammingDistance_eq_zero {x y : Descriptor} : hammingDistance x y = 0 ↔ x = y := by
  rw [hammingDistance, hammingList_eq_zero (by rw [x.2.1, y.2.1]) x.2.2 y.2.2]
  exact ⟨fun h => Subtype.ext h, fun h => congrArg Subtype.val h⟩

/-! ### Characterization of the perception similar-sets -/

theorem mem_similarsOf {t : Nat} {images : List (Nat × FileData)} {image other : Nat × FileData} :
    other ∈ similarsOf t images image ↔
      other ∈ images ∧ other.1 ≠ image.1 ∧
        hammingDistance (descrOf image.2) (descrOf other.2) ≤ t := by
  rw [similarsOf, List.mem_filter, similarPred]
  constructor
  · rintro ⟨hmem, hp⟩
    refine ⟨hmem, ?_⟩
    by_cases hid : other.1 = image.1
    · simp [hid] at hp
    · simp [hid] at hp
      exact ⟨hid, hp⟩
  · rintro ⟨hmem, hid, hdist⟩
    refine ⟨hmem, ?_⟩
    simp [hid, hdist]

theorem mem_build_perception_groups_at {t : Nat} {data : List FileData}
    {image : Nat × FileData} {s : List (Nat × FileData)} :
    (image, s) ∈ build_perception_groups_at t data ↔
      image ∈ perceptionImages data ∧
        s = similarsOf t (perceptionImages data) image ∧ s ≠ [] := by
  rw [build_perception_groups_at, List.mem_filterMap]
  constructor
  · rintro ⟨i, hi, hsome⟩
    by_cases hemp : (similarsOf t (perceptionImages data) i).isEmpty
    · simp [hemp] at hsome
    · simp only [hemp, Bool.false_eq_true, if_false, Option.some.injEq, Prod.mk.injEq] at hsome
      obtain ⟨rfl, rfl⟩ := hsome
      exact ⟨hi, rfl, by simpa [List.isEmpty_iff] using hemp⟩
  · rintro ⟨hi, rfl, hne⟩
    refine ⟨image, hi, ?_⟩
    simp [List.isEmpty_iff, hne]

/-- C2: for every record `R` carrying a perceptual fingerprint, the computed
similar-set of `R` contains exactly the other records `O` distinct from `R`
by identity (index in the record slice, i.e. Rust address) whose descriptor
lies within Hamming distance `ALLOWED_DISTANCE = 3` of `R`'s; in particular
two distinct records with numerically identical descriptors land in each
other's similar-sets; `R` never appears in its own similar-set; and a
cluster `(R, similar-set)` is emitted exactly when the similar-set is
non-empty. -/
theorem c2_similar_set_characterized (data : List FileData) :
    (∀ image other : Nat × FileData,
       other ∈ similarsOf ALLOWED_DISTANCE (perceptionImages data) image ↔
         other ∈ perceptionImages data ∧ other.1 ≠ image.1 ∧
           hammingDistance (descrOf image.2) (descrOf other.2) ≤ ALLOWED_DISTANCE) ∧
    (∀ image : Nat × FileData,
       image ∉ similarsOf ALLOWED_DISTANCE (perceptionImages data) image) ∧
    (∀ image other : Nat × FileData, image ∈ perceptionImages data →
       other ∈ perceptionImages data → other.1 ≠ image.1 →
       descrOf other.2 = descrOf image.2 →
       other ∈ similarsOf ALLOWED_DISTANCE (perceptionImages data) image ∧
         image ∈ similarsOf ALLOWED_DISTANCE (perceptionImages data) other) ∧
    (∀ (image : Nat × FileData) (s : List (Nat × FileData)),
       (image, s) ∈ build_perception_groups data ↔
         image ∈ perceptionImages data ∧
           s = similarsOf ALLOWED_DISTANCE (perceptionImages data) image ∧ s ≠ []) := by
  refine ⟨fun image other => mem_similarsOf, ?_, ?_, ?_⟩
  · intro image hmem
    exact ((mem_similarsOf.mp hmem).2.1) rfl
  · intro image other himg hoth hid hdesc
    constructor
    · exact mem_similarsOf.mpr ⟨hoth, hid, by rw [hdesc, hammingDistance_self]; exact Nat.zero_le _⟩
    · exact mem_similarsOf.mpr
        ⟨himg, fun h => hid h.symm, by rw [← hdesc, hammingDistance_self]; exact Nat.zero_le _⟩
  · intro image s
    exact mem_build_perception_groups_at

/-- Witness for C2: two structurally different records with identical
descriptors are mutually similar on concrete data. -/
theorem c2_similar_set_characterized_witness :
    ((1 : Nat), sampleImgRec2) ∈
        similarsOf ALLOWED_DISTANCE (perceptionImages [sampleImgRec, sampleImgRec2])
          (0, sampleImgRec) ∧
      ((0 : Nat), sampleImgRec) ∈
        similarsOf ALLOWED_DISTANCE (perceptionImages [sampleImgRec, sampleImgRec2])
          (1, sampleImgRec2) :=
  (c2_similar_set_characterized [sampleImgRec, sampleImgRec2]).2.2.1
    (0, sampleImgRec) (1, sampleImgRec2) (by decide) (by decide) (by decide) (by decide)

/-- C5: similarity is reported symmetrically and without deduplication — if
`A` appears in `B`'s similar-set then `B` appears in `A`'s similar-set, and
both `(A, ...)` and `(B, ...)` are emitted as separate cluster entries. -/
theorem c5_symmetric_and_undeduplicated (data : List FileData) (A B : Nat × FileData)
    (hB : B ∈ perceptionImages data)
    (hAB : A ∈ similarsOf ALLOWED_DISTANCE (perceptionImages data) B) :
    B ∈ similarsOf ALLOWED_DISTANCE (perceptionImages data) A ∧
    (B, similarsOf ALLOWED_DISTANCE (perceptionImages data) B) ∈ build_perception_groups data ∧
    (A, similarsOf ALLOWED_DISTANCE (perceptionImages data) A) ∈ build_perception_groups data := by
  obtain ⟨hAmem, hANe, hdist⟩ := mem_similarsOf.mp hAB
  have hBA : B ∈ similarsOf ALLOWED_DISTANCE (perceptionImages data) A :=
    mem_similarsOf.mpr ⟨hB, fun h => hANe h.symm, by rw [hammingDistance_comm]; exact hdist⟩
  refine ⟨hBA, ?_, ?_⟩
  · simp only [build_perception_groups]
    exact mem_build_perception_groups_at.mpr ⟨hB, rfl, List.ne_nil_of_mem hAB⟩
  · simp only [build_perception_groups]
    exact mem_build_perception_groups_at.mpr ⟨hAmem, rfl, List.ne_nil_of_mem hBA⟩

/-- Witness for C5 on two concrete records with identical descriptors. -/
theorem c5_symmetric_and_undeduplicated_witness :
    ((0 : Nat), sampleImgRec) ∈
        similarsOf ALLOWED_DISTANCE (perceptionImages [sampleImgRec, sampleImgRec2])
          (1, sampleImgRec2) ∧
    (((0 : Nat), sampleImgRec),
        similarsOf ALLOWED_DISTANCE (perceptionImages [sampleImgRec, sampleImgRec2])
          (0, sampleImgRec)) ∈ build_perception_groups [sampleImgRec, sampleImgRec2] ∧
    (((1 : Nat), sampleImgRec2),
        similarsOf ALLOWED_DISTANCE (perceptionImages [sampleImgRec, sampleImgRec2])
          (1, sampleImgRec2)) ∈ build_perception_groups [sampleImgRec, sampleImgRec2] :=
  c5_symmetric_and_undeduplicated [sampleImgRec, sampleImgRec2]
    (1, sampleImgRec2) (0, sampleImgRec) (by decide) (by decide)

/-- C6: at clustering threshold `0` the similar-set membership is exactly
"distinct record with a bit-identical descriptor", and two records with
bit-identical descriptors have Hamming distance `0` and are mutually
clustered at every non-negative threshold. -/
theorem c6_threshold_zero_is_descriptor_equality (data : List FileData) :
    (∀ image other : Nat × FileData,
       other ∈ similarsOf 0 (perceptionImages data) image ↔
         other ∈ perceptionImages data ∧ other.1 ≠ image.1 ∧
           descrOf other.2 = descrOf image.2) ∧
    (∀ (t : Nat) (image other : Nat × FileData), image ∈ perceptionImages data →
       other ∈ perceptionImages data → other.1 ≠ image.1 →
       descrOf other.2 = descrOf image.2 →
       hammingDistance (descrOf image.2) (descrOf other.2) = 0 ∧
       other ∈ similarsOf t (perceptionImages data) image ∧
       image ∈ similarsOf t (perceptionImages data) other) := by
  constructor
  · intro image other
    rw [mem_similarsOf]
    constructor
    · rintro ⟨h1, h2, h3⟩
      have hz : hammingDistance (descrOf image.2) (descrOf other.2) = 0 := Nat.le_zero.mp h3
      exact ⟨h1, h2, (hammingDistance_eq_zero.mp hz).symm⟩
    · rintro ⟨h1, h2, h3⟩
      refine ⟨h1, h2, ?_⟩
      rw [h3, hammingDistance_self]
  · intro t image other h1 h2 h3 h4
    have hz : hammingDistance (descrOf image.2) (descrOf other.2) = 0 := by
      rw [h4, hammingDistance_self]
    refine ⟨hz, mem_similarsOf.mpr ⟨h2, h3, by rw [hz]; exact Nat.zero_le _⟩,
      mem_similarsOf.mpr
        ⟨h1, fun h => h3 h.symm, by rw [hammingDistance_comm, hz]; exact Nat.zero_le _⟩⟩

/-- Witness for C6: two concrete records with bit-identical descriptors are
mutually clustered at the (arbitrary) threshold 7 with distance 0. -/
theorem c6_threshold_zero_is_descriptor_equality_witness :
    hammingDistance (descrOf ((0 : Nat), sampleImgRec).2)
        (descrOf ((1 : Nat), sampleImgRec2).2) = 0 ∧
    ((1 : Nat), sampleImgRec2) ∈
      similarsOf 7 (perceptionImages [sampleImgRec, sampleImgRec2]) (0, sampleImgRec) ∧
    ((0 : Nat), sampleImgRec) ∈
      similarsOf 7 (perceptionImages [sampleImgRec, sampleImgRec2]) (1, sampleImgRec2) :=
  (c6_threshold_zero_is_descriptor_equality [sampleImgRec, sampleImgRec2]).2 7
    (0, sampleImgRec) (1, sampleImgRec2) (by decide) (by decide) (by decide) (by decide)

/-! ### Lemmas about the sorted map built by `group_candates` -/

/-- The keys of the map, in order. -/
def keysOf (m : HashMapL) : List Nat := m.map Prod.fst

theorem keysOf_nil : keysOf [] = [] := rfl

theorem keysOf_cons (e : Nat × List FileData) (m : HashMapL) :
    keysOf (e :: m) = e.1 :: keysOf m := rfl

theorem fst_mem_keysOf {g : Nat × List FileData} {m : HashMapL} (h : g ∈ m) :
    g.1 ∈ keysOf m :=
  List.mem_map_of_mem Prod.fst h

/-- The list stored under a key (`[]` when the key is absent). -/
def valueAt (k : Nat) : HashMapL → List FileData
  | [] => []
  | e :: rest => if e.1 = k then e.2 else valueAt k rest

theorem valueAt_nil (k : Nat) : valueAt k [] = [] := rfl

theorem mem_keys_insertEntry {k : Nat} {v : FileData} {m : HashMapL} {j : Nat}
    (hj : j ∈ keysOf (insertEntry k v m)) : j = k ∨ j ∈ keysOf m := by
  induction m with
  | nil =>
    simp only [insertEntry, keysOf_cons, keysOf_nil, List.mem_cons, List.not_mem_nil,
      or_false] at hj
    exact Or.inl hj
  | cons e rest ih =>
    obtain ⟨k₀, vs⟩ := e
    simp only [insertEntry] at hj
    by_cases h1 : k < k₀
    · rw [if_pos h1] at hj
      simp only [keysOf_cons, List.mem_cons] at hj ⊢
      tauto
    · by_cases h2 : k = k₀
      · rw [if_neg h1, if_pos h2] at hj
        simp only [keysOf_cons, List.mem_cons] at hj ⊢
        tauto
      · rw [if_neg h1, if_neg h2] at hj
        simp only [keysOf_cons, List.mem_cons] at hj ⊢
        rcases hj with h | h
        · tauto
        · rcases ih h with h' | h' <;> tauto

theorem keys_pairwise_insertEntry (k : Nat) (v : FileData) (m : HashMapL)
    (h : (keysOf m).Pairwise (· < ·)) :
    (keysOf (insertEntry k v m)).Pairwise (· < ·) := by
  induction m with
  | nil => simp [insertEntry, keysOf]
  | cons e rest ih =>
    obtain ⟨k₀, vs⟩ := e
    simp only [keysOf_cons, List.pairwise_cons] at h
    obtain ⟨hk₀, hrest⟩ := h
    simp only [insertEntry]
    by_cases h1 : k < k₀
    · rw [if_pos h1]
      simp only [keysOf_cons, List.pairwise_cons]
      refine ⟨?_, hk₀, hrest⟩
      intro j hj
      rcases List.mem_cons.mp hj with rfl | hj'
      · exact h1
      · exact lt_trans h1 (hk₀ j hj')
    · by_cases h2 : k = k₀
      · rw [if_neg h1, if_pos h2]
        simp only [keysOf_cons, List.pairwise_cons]
        exact ⟨hk₀, hrest⟩
      · rw [if_neg h1, if_neg h2]
        simp only [keysOf_cons, List.pairwise_cons]
        refine ⟨?_, ih hrest⟩
        intro j hj
        rcases mem_keys_insertEntry hj with rfl | hjr
        · omega
        · exact hk₀ j hjr

theorem valueAt_eq_nil_of_not_mem {k : Nat} {m : HashMapL} (h : k ∉ keysOf m) :
    valueAt k m = [] := by
  induction m with
  | nil => rfl
  | cons e rest ih =>
    simp only [keysOf_cons, List.mem_cons, not_or] at h
    simp only [valueAt]
    rw [if_neg (fun he => h.1 he.symm)]
    exact ih h.2

theorem valueAt_insertEntry (k : Nat) (v : FileData) (k' : Nat) (m : HashMapL)
    (hm : (keysOf m).Pairwise (· < ·)) :
    valueAt k' (insertEntry k v m) =
      if k' = k then valueAt k' m ++ [v] else valueAt k' m := by
  induction m with
  | nil =>
    by_cases h : k' = k
    · subst h
      simp [insertEntry, valueAt]
    · have h' : ¬ k = k' := fun hh => h hh.symm
      simp [insertEntry, valueAt, h, h']
  | cons e rest ih =>
    obtain ⟨k₀, vs⟩ := e
    simp only [keysOf_cons, List.pairwise_cons] at hm
    obtain ⟨hk₀, hrest⟩ := hm
    simp only [insertEntry]
    by_cases h1 : k < k₀
    · rw [if_pos h1]
      by_cases h2 : k' = k
      · subst h2
        have hne1 : ¬ k₀ = k' := by omega
        have hnil : valueAt k' rest = [] := by
          refine valueAt_eq_nil_of_not_mem (fun hmem => ?_)
          have := hk₀ k' hmem
          omega
        simp [valueAt, hne1, hnil]
      · have h2' : ¬ k = k' := fun hh => h2 hh.symm
        simp [valueAt, h2, h2']
    · by_cases h2 : k = k₀
      · subst h2
        rw [if_neg h1, if_pos rfl]
        by_cases h3 : k' = k
        · subst h3
          simp [valueAt]
        · have h3' : ¬ k = k' := fun hh => h3 hh.symm
          simp [valueAt, h3, h3']
      · rw [if_neg h1, if_neg h2]
        simp only [valueAt]
        by_cases h3 : k₀ = k'
        · subst h3
          have hne : ¬ k₀ = k := fun hh => h2 hh.symm
          rw [if_pos rfl, if_neg hne, if_pos rfl]
        · rw [if_neg h3, if_neg h3, ih hrest]

theorem group_fold_spec (items : List FileData) (m : HashMapL)
    (hm : (keysOf m).Pairwise (· < ·)) :
    (keysOf (items.foldl (fun acc it => insertEntry (hashKey it) it acc) m)).Pairwise (· < ·) ∧
    ∀ k, valueAt k (items.foldl (fun acc it => insertEntry (hashKey it) it acc) m) =
      valueAt k m ++ items.filter (fun it => decide (hashKey it = k)) := by
  induction items generalizing m with
  | nil => simpa using hm
  | cons it rest ih =>
    simp only [List.foldl_cons]
    have hm' := keys_pairwise_insertEntry (hashKey it) it m hm
    obtain ⟨hp, hv⟩ := ih (insertEntry (hashKey it) it m) hm'
    refine ⟨hp, fun k => ?_⟩
    rw [hv k, valueAt_insertEntry _ _ _ _ hm]
    by_cases hk : k = hashKey it
    · rw [if_pos hk]
      simp [List.filter_cons, hk.symm, List.append_assoc]
    · rw [if_neg hk]
      have hk' : ¬ hashKey it = k := fun hh => hk hh.symm
      simp [List.filter_cons, hk']

theorem group_candates_pairwise (items : List FileData) :
    (keysOf (group_candates items)).Pairwise (· < ·) :=
  (group_fold_spec items [] List.Pairwise.nil).1

theorem group_candates_valueAt (items : List FileData) (k : Nat) :
    valueAt k (group_candates items) = items.filter (fun it => decide (hashKey it = k)) := by
  have h := (group_fold_spec items [] List.Pairwise.nil).2 k
  simpa [group_candates, valueAt_nil] using h

theorem valueAt_of_mem {m : HashMapL} (hm : (keysOf m).Pairwise (· < ·))
    {g : Nat × List FileData} (hg : g ∈ m) : valueAt g.1 m = g.2 := by
  induction m with
  | nil => simp at hg
  | cons e rest ih =>
    simp only [keysOf_cons, List.pairwise_cons] at hm
    rcases List.mem_cons.mp hg with rfl | hg'
    · simp [valueAt]
    · simp only [valueAt]
      have hne : ¬ e.1 = g.1 := by
        intro he
        have := hm.1 g.1 (fst_mem_keysOf hg')
        omega
      rw [if_neg hne]
      exact ih hm.2 hg'

theorem mem_of_valueAt_ne {m : HashMapL} {k : Nat} (h : valueAt k m ≠ []) :
    (k, valueAt k m) ∈ m := by
  induction m with
  | nil => exact absurd rfl h
  | cons e rest ih =>
    obtain ⟨k₀, vs⟩ := e
    simp only [valueAt] at h ⊢
    by_cases he : k₀ = k
    · subst he
      rw [if_pos rfl] at h ⊢
      exact List.mem_cons_self _ _
    · rw [if_neg he] at h ⊢
      exact List.mem_cons_of_mem _ (ih h)

theorem keys_nodup_entries_eq {m : HashMapL} (hnd : (keysOf m).Nodup)
    {g g' : Nat × List FileData} (hg : g ∈ m) (hg' : g' ∈ m) (hk : g'.1 = g.1) :
    g' = g := by
  induction m with
  | nil => simp at hg
  | cons e rest ih =>
    simp only [keysOf_cons, List.nodup_cons] at hnd
    rcases List.mem_cons.mp hg with rfl | hgr
    · rcases List.mem_cons.mp hg' with rfl | hg'r
      · rfl
      · exact absurd (hk ▸ fst_mem_keysOf hg'r) hnd.1
    · rcases List.mem_cons.mp hg' with rfl | hg'r
      · exact absurd (hk ▸ fst_mem_keysOf hgr) hnd.1
      · exact ih hnd.2 hgr hg'r

/-- C3: exact grouping maps each retained fingerprint to exactly the records
carrying it; every retained group has at least two members (singletons are
discarded); keys are pairwise distinct; and every record whose fingerprint is
shared with at least one other record lies in exactly one group — grouping by
fingerprint equality partitions the input. -/
theorem c3_exact_grouping_partitions (items : List FileData) :
    (∀ g ∈ exact_groups items, 2 ≤ g.2.length ∧
       g.2 = items.filter (fun it => decide (hashKey it = g.1))) ∧
    (keysOf (exact_groups items)).Nodup ∧
    (∀ it ∈ items, 2 ≤ (items.filter (fun o => decide (hashKey o = hashKey it))).length →
       ∃! g, g ∈ exact_groups items ∧ it ∈ g.2) := by
  have hpair := group_candates_pairwise items
  have hnd : (keysOf (group_candates items)).Nodup :=
    hpair.imp (fun h => Nat.ne_of_lt h)
  refine ⟨?_, ?_, ?_⟩
  · intro g hg
    have hgc : g ∈ group_candates items := (List.mem_filter.mp hg).1
    have hlen : 1 < g.2.length := by simpa using (List.mem_filter.mp hg).2
    refine ⟨by omega, ?_⟩
    rw [← valueAt_of_mem hpair hgc, group_candates_valueAt]
  · have hsub : List.Sublist (exact_groups items) (group_candates items) :=
      List.filter_sublist _
    exact List.Nodup.sublist (hsub.map Prod.fst) hnd
  · intro it hit hshared
    have hval : valueAt (hashKey it) (group_candates items) =
        items.filter (fun o => decide (hashKey o = hashKey it)) :=
      group_candates_valueAt items (hashKey it)
    have hitf : it ∈ items.filter (fun o => decide (hashKey o = hashKey it)) := by
      simp [List.mem_filter, hit]
    have hne : valueAt (hashKey it) (group_candates items) ≠ [] := by
      rw [hval]
      exact List.ne_nil_of_mem hitf
    have hmem : (hashKey it, valueAt (hashKey it) (group_candates items)) ∈
        group_candates items := mem_of_valueAt_ne hne
    have hmemex : (hashKey it, valueAt (hashKey it) (group_candates items)) ∈
        exact_groups items := by
      rw [exact_groups, List.mem_filter]
      refine ⟨hmem, ?_⟩
      have : 1 < (valueAt (hashKey it) (group_candates items)).length := by
        rw [hval]
        omega
      simpa using this
    refine ⟨(hashKey it, valueAt (hashKey it) (group_candates items)),
      ⟨hmemex, by rw [hval] at hmem ⊢; exact hitf⟩, ?_⟩
    rintro g' ⟨hg'mem, hg'it⟩
    have hg'gc : g' ∈ group_candates items := (List.mem_filter.mp hg'mem).1
    have hg'val : g'.2 = valueAt g'.1 (group_candates items) :=
      (valueAt_of_mem hpair hg'gc).symm
    have hfmem : it ∈ items.filter (fun o => decide (hashKey o = g'.1)) := by
      rw [← group_candates_valueAt, ← hg'val]
      exact hg'it
    have hkeq : g'.1 = hashKey it := by
      have := (List.mem_filter.mp hfmem).2
      simp at this
      omega
    exact keys_nodup_entries_eq hnd hmem hg'gc hkeq

/-- A record with a fingerprint shared by a second record, for the C3
witness. -/
def dupRecA : FileData :=
  { path := "a", file_hash := some 5, size := some 1, perception_hash := none }

/-- A second record with the same fingerprint. -/
def dupRecB : FileData :=
  { path := "b", file_hash := some 5, size := some 1, perception_hash := none }

/-- Witness for C3: on concrete data with a shared fingerprint, the record
belongs to exactly one retained group. -/
theorem c3_exact_grouping_partitions_witness :
    ∃! g, g ∈ exact_groups [dupRecA, dupRecB] ∧ dupRecA ∈ g.2 :=
  (c3_exact_grouping_partitions [dupRecA, dupRecB]).2.2 dupRecA (by decide) (by decide)

/-! ### C4: behaviour of an exact-grouping run with zero groups -/

/-- A filesystem holding two files with pairwise-distinct one-byte contents
(hence pairwise-distinct prefixes and fingerprints). -/
def c4Fs : String → Option (List Nat) := fun p =>
  if p = "a" then some [0] else if p = "b" then some [1] else none

/-- The records produced by the hashing phase on those two files. -/
def c4Data : List FileData :=
  hashPhase c4Fs (fun _ => none) false
    [Except.ok (FileData.from_file ("a")), Except.ok (FileData.from_file ("b"))]

/-- C4 (code bug): on two files with pairwise-distinct fingerprints, both
files hash successfully and exact grouping retains zero groups, but
`build_exact_groups` then divides the group-size sum by `groups.len() = 0`
(main.rs:122), which panics in Rust — the run does not complete gracefully
as the spec requires. -/
theorem c4_zero_groups_divide_by_zero_panic :
    c4Data.length = 2 ∧
    exact_groups c4Data = [] ∧
    build_exact_groups c4Data = Except.error ("attempt to divide by zero") := by
  refine ⟨rfl, rfl, rfl⟩

end DupFinder
